import Mathlib

/-!
Shallow embedding of the binary search visualizer (`src/app.py`) and proofs
of the specification's claims about it.

The embedded parts are:
* `BinarySearchAlgorithm.execute` (app.py lines 33-103): the traced binary
  search loop, embedded as `BS.searchLoop` (the `while left <= right` loop)
  wrapped by `BS.execute` (initial step, loop, optional `not_found` step).
* the `BinarySearchApp` session state and its navigation operations
  `next_step`, `previous_step`, `reset_search` (app.py lines 201-314).
* the stats / log projection of `display_current_step` (app.py lines 261-293).
* the bar color selection of `BinarySearchVisualizer.create_bar_chart`
  (app.py lines 139-150).

Python integers are embedded as `Int` (arbitrary precision, as in Python);
Python `//` (floor division) is `Int.fdiv`; the step dictionaries become the
`Step` structure, with Python `None` for `mid`/`comparison` embedded as
`Option`.
-/

namespace BS

/-- The `'status'` field of a step dictionary: one of the Python string
values `'searching'`, `'found'`, `'not_found'`. -/
inductive Status where
  | searching : Status
  | found : Status
  | not_found : Status
deriving DecidableEq, Repr, Inhabited

/-- The `'comparison'` field of a step dictionary when it is not `None`:
one of the Python string values `'equal'`, `'less'`, `'greater'`. -/
inductive Cmp where
  | equal : Cmp
  | less : Cmp
  | greater : Cmp
deriving DecidableEq, Repr

/-- One step dictionary appended to `self.steps` by
`BinarySearchAlgorithm.execute` (app.py lines 44-101).  `left` and `right`
are always plain Python ints in the source (`right` can be `-1`), so they
are `Int` here; `mid` and `comparison` can be Python `None`, so they are
`Option`. -/
structure Step where
  left : Int
  right : Int
  mid : Option Int
  comparison : Option Cmp
  message : String
  status : Status
deriving DecidableEq, Repr, Inhabited

/-- Result of running the `while` loop of `execute` (app.py lines 53-90):
the steps appended by the loop, plus the final values of the Python locals
`left`, `right` and the fields `self.comparisons`, `self.found`,
`self.found_index` that the loop mutates. -/
structure LoopResult where
  steps : List Step
  comparisons : Nat
  found : Bool
  found_index : Int
  left : Int
  right : Int
deriving Repr

/-- The `while left <= right` loop of `BinarySearchAlgorithm.execute`
(app.py lines 53-90).  Each iteration computes `mid = (left + right) // 2`
(Python floor division = `Int.fdiv`), reads `array[mid]`, increments the
comparison counter and either records a `found` step and breaks, or records
a `less`/`greater` step and narrows the interval.  `array[mid]` is embedded
as `array.getD mid.toNat 0`; that the access is in bounds (so the default
is never taken and `toNat` loses nothing) is proved below (claim C10). -/
def searchLoop (array : List Int) (target : Int) (left right : Int)
    (comparisons : Nat) : LoopResult :=
  if left ≤ right then
    let mid : Int := (left + right).fdiv 2
    let mid_value : Int := array.getD mid.toNat 0
    let comparisons' := comparisons + 1
    if mid_value = target then
      { steps := [{ left := left, right := right, mid := some mid,
                    comparison := some Cmp.equal,
                    message := "Step " ++ toString comparisons' ++
                      ": Found! Array[" ++ toString mid ++ "] = " ++
                      toString mid_value ++ " equals target " ++
                      toString target,
                    status := Status.found }],
        comparisons := comparisons', found := true, found_index := mid,
        left := left, right := right }
    else if mid_value < target then
      let rest := searchLoop array target (mid + 1) right comparisons'
      { rest with steps :=
          { left := left, right := right, mid := some mid,
            comparison := some Cmp.less,
            message := "Step " ++ toString comparisons' ++ ": Array[" ++
              toString mid ++ "] = " ++ toString mid_value ++ " < " ++
              toString target ++ ". Searching right half.",
            status := Status.searching } :: rest.steps }
    else
      let rest := searchLoop array target left (mid - 1) comparisons'
      { rest with steps :=
          { left := left, right := right, mid := some mid,
            comparison := some Cmp.greater,
            message := "Step " ++ toString comparisons' ++ ": Array[" ++
              toString mid ++ "] = " ++ toString mid_value ++ " > " ++
              toString target ++ ". Searching left half.",
            status := Status.searching } :: rest.steps }
  else
    { steps := [], comparisons := comparisons, found := false,
      found_index := -1, left := left, right := right }
termination_by (right + 1 - left).toNat
decreasing_by
  all_goals
    rw [Int.fdiv_eq_ediv _ (by norm_num)]
    omega

/-- The state of a `BinarySearchAlgorithm` object after `execute` returned:
`self.steps`, `self.comparisons`, `self.found`, `self.found_index`
(app.py lines 26-31 as mutated by lines 33-103). -/
structure SearchState where
  steps : List Step
  comparisons : Nat
  found : Bool
  found_index : Int
deriving Repr

/-- `BinarySearchAlgorithm.execute` (app.py lines 33-103): append the
initial step (mid unset, status `searching`), run the loop, and if the
target was not found append a terminal `not_found` step that uses the final
values of `left` and `right` and reports the comparison count. -/
def execute (array : List Int) (target : Int) : SearchState :=
  let left : Int := 0
  let right : Int := (array.length : Int) - 1
  let initStep : Step :=
    { left := left, right := right, mid := none, comparison := none,
      message := "Starting search for " ++ toString target ++
        " in array of size " ++ toString array.length,
      status := Status.searching }
  let lr := searchLoop array target left right 0
  if lr.found then
    { steps := initStep :: lr.steps, comparisons := lr.comparisons,
      found := true, found_index := lr.found_index }
  else
    { steps := initStep :: lr.steps ++
        [{ left := lr.left, right := lr.right, mid := none,
           comparison := none,
           message := "Search complete: " ++ toString target ++
             " not found in array after " ++ toString lr.comparisons ++
             " comparisons",
           status := Status.not_found }],
      comparisons := lr.comparisons, found := false,
      found_index := lr.found_index }

/-- The state held by the `BinarySearchApp` object (app.py lines 207-214)
that the claims are about: the current array, the current target, the
cursor `current_step`, the bound trace `all_steps` and the auto-play flag
`is_playing`.  (The `algorithm` and `visualizer` attributes carry no state
beyond what is captured here.) -/
structure AppState where
  current_array : List Int
  current_target : Option Int
  current_step : Nat
  all_steps : List Step
  is_playing : Bool
deriving DecidableEq, Repr

/-- `BinarySearchApp.initialize_search` (app.py lines 239-259): on a
non-empty array, set the target, run the algorithm, bind the resulting
trace and reset the cursor to 0.  On an empty array nothing is mutated
(the Python method returns an error tuple without touching state). -/
def initialize_search (s : AppState) (array : List Int) (target : Int) : AppState :=
  if array = [] then s
  else
    { s with current_target := some target,
             all_steps := (execute array target).steps,
             current_step := 0 }

/-- `BinarySearchApp.next_step` (app.py lines 295-301): advance the cursor
if it is strictly before the last index of `all_steps`, otherwise leave it
and clear `is_playing`.  The comparison `current_step < len(all_steps) - 1`
is Python int arithmetic, so it is taken over `Int` (for an empty trace the
right-hand side is `-1`). -/
def next_step (s : AppState) : AppState :=
  if (s.current_step : Int) < (s.all_steps.length : Int) - 1 then
    { s with current_step := s.current_step + 1 }
  else
    { s with is_playing := false }

/-- `BinarySearchApp.previous_step` (app.py lines 303-307): retreat the
cursor if it is positive, otherwise do nothing. -/
def previous_step (s : AppState) : AppState :=
  if 0 < s.current_step then { s with current_step := s.current_step - 1 }
  else s

/-- `BinarySearchApp.reset_search` (app.py lines 309-314): set the cursor
back to 0 (the trace is kept). -/
def reset_search (s : AppState) : AppState :=
  { s with current_step := 0 }

/-- The comparison counter shown by `display_current_step` (app.py line
278: `Comparisons so far: {self.current_step}`): the value interpolated
into the stats text is the cursor itself. -/
def comparisonsSoFarDisplayed (s : AppState) : Nat :=
  s.current_step

/-- Modelled from the claim's words: the number of comparisons actually
recorded in steps `0..c` inclusive, i.e. the number of steps among the
first `c+1` whose `comparison` field is set. -/
def countComparisons (steps : List Step) (c : Nat) : Nat :=
  ((steps.take (c + 1)).filter (fun s => s.comparison.isSome)).length

/-- The color table of `BinarySearchVisualizer` (app.py lines 116-121). -/
def color_default : String := "#1f3a93"

/-- Grey for eliminated sections (app.py line 118). -/
def color_eliminated : String := "#d3d3d3"

/-- Yellow for the current middle element (app.py line 119). -/
def color_current : String := "#ffd700"

/-- Green for the found target (app.py line 120). -/
def color_found : String := "#32cd32"

/-- The color chosen for bar `i` by `create_bar_chart` (app.py lines
139-150).  Python's `i == step_data['mid']` is false when `mid` is `None`,
which is exactly `step_data.mid = some (i : Int)` here; the Python guard
`step_data['left'] is not None and step_data['right'] is not None` is
always true because every step dictionary built by `execute` stores plain
ints in `left`/`right`, so it is omitted from the embedding. -/
def barColor (step_data : Step) (i : Nat) : String :=
  if step_data.status = Status.found ∧ step_data.mid = some (i : Int) then
    color_found
  else if step_data.mid.isSome ∧ step_data.mid = some (i : Int) then
    color_current
  else if (i : Int) < step_data.left ∨ (i : Int) > step_data.right then
    color_eliminated
  else
    color_default

/-- The full color list built by the bar loop of `create_bar_chart`
(app.py lines 138-150): one color per array position. -/
def create_bar_chart_colors (array : List Int) (step_data : Step) : List String :=
  (List.range array.length).map (fun i => barColor step_data i)

/-- The per-position highlight taxonomy of the spec (section 4.3 / claim
C8): `IN_RANGE`, `ELIMINATED`, `CURRENT_MID`, `FOUND`. -/
inductive Highlight where
  | IN_RANGE : Highlight
  | ELIMINATED : Highlight
  | CURRENT_MID : Highlight
  | FOUND : Highlight
deriving DecidableEq, Repr

/-- Modelled from the claim's words (C8): the highlight class of position
`i`, with tie-break priority FOUND > CURRENT_MID > ELIMINATED > IN_RANGE;
`left`/`right` are always set in a recorded step, so the "left and right
are set" side condition of the ELIMINATED clause is vacuously true. -/
def claimHighlight (step : Step) (i : Nat) : Highlight :=
  if step.status = Status.found ∧ step.mid = some (i : Int) then
    Highlight.FOUND
  else if step.mid.isSome ∧ step.mid = some (i : Int) then
    Highlight.CURRENT_MID
  else if (i : Int) < step.left ∨ (i : Int) > step.right then
    Highlight.ELIMINATED
  else
    Highlight.IN_RANGE

/-- The color the visualizer's table assigns to each highlight class
(app.py lines 116-121 against the legend at lines 178-183). -/
def colorOfHighlight : Highlight → String
  | Highlight.IN_RANGE => color_default
  | Highlight.ELIMINATED => color_eliminated
  | Highlight.CURRENT_MID => color_current
  | Highlight.FOUND => color_found

/-! ### Helper lemmas -/

/-- The probe index `mid = (left + right) // 2` stays inside the current
interval whenever the interval is nonempty. -/
lemma fdiv2_bounds {l r : Int} (h : l ≤ r) :
    l ≤ (l + r).fdiv 2 ∧ (l + r).fdiv 2 ≤ r := by
  rw [Int.fdiv_eq_ediv _ (by norm_num)]
  constructor <;> omega

lemma getD_eq_get (a : List Int) (i : Nat) (h : i < a.length) :
    a.getD i 0 = a.get ⟨i, h⟩ := by
  simp [List.getD_eq_getElem?_getD, List.getElem?_eq_getElem h]

/-- Monotonicity of a sorted list, phrased with `getD`. -/
lemma sorted_getD_le (a : List Int) (hs : List.Sorted (· ≤ ·) a)
    {i j : Nat} (hij : i ≤ j) (hj : j < a.length) :
    a.getD i 0 ≤ a.getD j 0 := by
  have hi : i < a.length := lt_of_le_of_lt hij hj
  rw [getD_eq_get a i hi, getD_eq_get a j hj]
  rcases eq_or_lt_of_le hij with rfl | hlt
  · exact le_refl _
  · exact List.pairwise_iff_get.mp hs ⟨i, hi⟩ ⟨j, hj⟩ hlt

/-- One halving step of the ceiling log: `clog 2 (n/2 + 1) + 1 ≤ clog 2 (n+1)`
for `n ≥ 1`. -/
lemma clog_half (n : Nat) (h : 1 ≤ n) :
    Nat.clog 2 (n / 2 + 1) + 1 ≤ Nat.clog 2 (n + 1) := by
  conv_rhs => rw [Nat.clog_of_two_le (by norm_num) (by omega)]
  have h2 : (n + 1 + 2 - 1) / 2 = n / 2 + 1 := by omega
  rw [h2]

/-! ### Structural lemmas about the search loop -/

/-- Every step the loop records carries a comparison outcome (the initial
and `not_found` steps, which do not, are appended outside the loop). -/
lemma searchLoop_comparison_isSome (a : List Int) (t : Int) (l r : Int) (c : Nat) :
    ∀ s ∈ (searchLoop a t l r c).steps, s.comparison.isSome := by
  induction l, r, c using searchLoop.induct a t with
  | case1 l r c hlr mid mv heq =>
      intro s hs
      have heq2 : a.getD ((l + r).fdiv 2).toNat 0 = t := heq
      rw [searchLoop] at hs
      simp only [if_pos hlr, if_pos heq2, List.mem_singleton] at hs
      subst hs; rfl
  | case2 l r c hlr mid mv cm hne hlt ih =>
      intro s hs
      have hne2 : ¬(a.getD ((l + r).fdiv 2).toNat 0 = t) := hne
      have hlt2 : a.getD ((l + r).fdiv 2).toNat 0 < t := hlt
      rw [searchLoop] at hs
      simp only [if_pos hlr, if_neg hne2, if_pos hlt2, List.mem_cons] at hs
      rcases hs with rfl | hs
      · rfl
      · exact ih s hs
  | case3 l r c hlr mid mv cm hne hge ih =>
      intro s hs
      have hne2 : ¬(a.getD ((l + r).fdiv 2).toNat 0 = t) := hne
      have hge2 : ¬(a.getD ((l + r).fdiv 2).toNat 0 < t) := hge
      rw [searchLoop] at hs
      simp only [if_pos hlr, if_neg hne2, if_neg hge2, List.mem_cons] at hs
      rcases hs with rfl | hs
      · rfl
      · exact ih s hs
  | case4 l r c hlr =>
      intro s hs
      rw [searchLoop] at hs
      simp only [if_neg hlr, List.not_mem_nil] at hs

/-- When the loop exits without a match, every step it recorded is a
`searching` step whose outcome is `less` or `greater` (never `equal`), and
`found_index` keeps its initial value `-1`. -/
lemma searchLoop_not_found_shape (a : List Int) (t : Int) (l r : Int) (c : Nat) :
    (searchLoop a t l r c).found = false →
    (∀ s ∈ (searchLoop a t l r c).steps,
        s.status = Status.searching ∧ s.comparison ≠ some Cmp.equal) ∧
    (searchLoop a t l r c).found_index = -1 := by
  induction l, r, c using searchLoop.induct a t with
  | case1 l r c hlr mid mv heq =>
      intro hf
      have heq2 : a.getD ((l + r).fdiv 2).toNat 0 = t := heq
      rw [searchLoop] at hf
      simp only [if_pos hlr, if_pos heq2] at hf
      simp at hf
  | case2 l r c hlr mid mv cm hne hlt ih =>
      intro hf
      have hne2 : ¬(a.getD ((l + r).fdiv 2).toNat 0 = t) := hne
      have hlt2 : a.getD ((l + r).fdiv 2).toNat 0 < t := hlt
      rw [searchLoop] at hf ⊢
      simp only [if_pos hlr, if_neg hne2, if_pos hlt2] at hf ⊢
      obtain ⟨hsteps, hidx⟩ := ih hf
      refine ⟨?_, hidx⟩
      intro s hs
      rcases List.mem_cons.mp hs with rfl | hs
      · exact ⟨rfl, by simp⟩
      · exact hsteps s hs
  | case3 l r c hlr mid mv cm hne hge ih =>
      intro hf
      have hne2 : ¬(a.getD ((l + r).fdiv 2).toNat 0 = t) := hne
      have hge2 : ¬(a.getD ((l + r).fdiv 2).toNat 0 < t) := hge
      rw [searchLoop] at hf ⊢
      simp only [if_pos hlr, if_neg hne2, if_neg hge2] at hf ⊢
      obtain ⟨hsteps, hidx⟩ := ih hf
      refine ⟨?_, hidx⟩
      intro s hs
      rcases List.mem_cons.mp hs with rfl | hs
      · exact ⟨rfl, by simp⟩
      · exact hsteps s hs
  | case4 l r c hlr =>
      intro _
      rw [searchLoop]
      simp [if_neg hlr]

/-- When the loop finds the target, its recorded steps are zero or more
`searching` steps followed by one final `found` step whose outcome is
`equal` and whose `mid` is the recorded `found_index`. -/
lemma searchLoop_found_shape (a : List Int) (t : Int) (l r : Int) (c : Nat) :
    (searchLoop a t l r c).found = true →
    ∃ pre st, (searchLoop a t l r c).steps = pre ++ [st] ∧
      (∀ s ∈ pre, s.status = Status.searching) ∧
      st.status = Status.found ∧ st.comparison = some Cmp.equal ∧
      st.mid = some (searchLoop a t l r c).found_index := by
  induction l, r, c using searchLoop.induct a t with
  | case1 l r c hlr mid mv heq =>
      intro _
      have heq2 : a.getD ((l + r).fdiv 2).toNat 0 = t := heq
      rw [searchLoop]
      simp only [if_pos hlr, if_pos heq2]
      exact ⟨[], _, rfl, by simp, rfl, rfl, rfl⟩
  | case2 l r c hlr mid mv cm hne hlt ih =>
      intro hf
      have hne2 : ¬(a.getD ((l + r).fdiv 2).toNat 0 = t) := hne
      have hlt2 : a.getD ((l + r).fdiv 2).toNat 0 < t := hlt
      rw [searchLoop] at hf ⊢
      simp only [if_pos hlr, if_neg hne2, if_pos hlt2] at hf ⊢
      obtain ⟨pre, st, hsplit, hpre, hst⟩ := ih hf
      rw [hsplit]
      refine ⟨_ :: pre, st, rfl, ?_, hst⟩
      intro s hs
      rcases List.mem_cons.mp hs with rfl | hs
      · rfl
      · exact hpre s hs
  | case3 l r c hlr mid mv cm hne hge ih =>
      intro hf
      have hne2 : ¬(a.getD ((l + r).fdiv 2).toNat 0 = t) := hne
      have hge2 : ¬(a.getD ((l + r).fdiv 2).toNat 0 < t) := hge
      rw [searchLoop] at hf ⊢
      simp only [if_pos hlr, if_neg hne2, if_neg hge2] at hf ⊢
      obtain ⟨pre, st, hsplit, hpre, hst⟩ := ih hf
      rw [hsplit]
      refine ⟨_ :: pre, st, rfl, ?_, hst⟩
      intro s hs
      rcases List.mem_cons.mp hs with rfl | hs
      · rfl
      · exact hpre s hs
  | case4 l r c hlr =>
      intro hf
      rw [searchLoop] at hf
      simp only [if_neg hlr] at hf
      simp at hf

/-- When the loop reports success, the recorded `found_index` is an
in-bounds position of the array holding the target (given the initial
bounds invariant `0 ≤ left` and `right < length`). -/
lemma searchLoop_found_value (a : List Int) (t : Int) (l r : Int) (c : Nat) :
    0 ≤ l → r < (a.length : Int) →
    (searchLoop a t l r c).found = true →
    0 ≤ (searchLoop a t l r c).found_index ∧
    ((searchLoop a t l r c).found_index).toNat < a.length ∧
    a.getD ((searchLoop a t l r c).found_index).toNat 0 = t := by
  induction l, r, c using searchLoop.induct a t with
  | case1 l r c hlr mid mv heq =>
      intro hl hr _
      have heq2 : a.getD ((l + r).fdiv 2).toNat 0 = t := heq
      have hb := fdiv2_bounds hlr
      rw [searchLoop]
      simp only [if_pos hlr, if_pos heq2]
      exact ⟨by omega, by omega, heq2⟩
  | case2 l r c hlr mid mv cm hne hlt ih =>
      intro hl hr hf
      have hne2 : ¬(a.getD ((l + r).fdiv 2).toNat 0 = t) := hne
      have hlt2 : a.getD ((l + r).fdiv 2).toNat 0 < t := hlt
      have hb := fdiv2_bounds hlr
      have ih2 : 0 ≤ (l + r).fdiv 2 + 1 → r < (a.length : Int) →
          (searchLoop a t ((l + r).fdiv 2 + 1) r (c + 1)).found = true →
          0 ≤ (searchLoop a t ((l + r).fdiv 2 + 1) r (c + 1)).found_index ∧
          ((searchLoop a t ((l + r).fdiv 2 + 1) r (c + 1)).found_index).toNat < a.length ∧
          a.getD ((searchLoop a t ((l + r).fdiv 2 + 1) r (c + 1)).found_index).toNat 0 = t := ih
      rw [searchLoop] at hf ⊢
      simp only [if_pos hlr, if_neg hne2, if_pos hlt2] at hf ⊢
      exact ih2 (by omega) hr hf
  | case3 l r c hlr mid mv cm hne hge ih =>
      intro hl hr hf
      have hne2 : ¬(a.getD ((l + r).fdiv 2).toNat 0 = t) := hne
      have hge2 : ¬(a.getD ((l + r).fdiv 2).toNat 0 < t) := hge
      have hb := fdiv2_bounds hlr
      have ih2 : 0 ≤ l → (l + r).fdiv 2 - 1 < (a.length : Int) →
          (searchLoop a t l ((l + r).fdiv 2 - 1) (c + 1)).found = true →
          0 ≤ (searchLoop a t l ((l + r).fdiv 2 - 1) (c + 1)).found_index ∧
          ((searchLoop a t l ((l + r).fdiv 2 - 1) (c + 1)).found_index).toNat < a.length ∧
          a.getD ((searchLoop a t l ((l + r).fdiv 2 - 1) (c + 1)).found_index).toNat 0 = t := ih
      rw [searchLoop] at hf ⊢
      simp only [if_pos hlr, if_neg hne2, if_neg hge2] at hf ⊢
      exact ih2 hl (by omega) hf
  | case4 l r c hlr =>
      intro _ _ hf
      rw [searchLoop] at hf
      simp only [if_neg hlr] at hf
      simp at hf

/-- Interval invariant of the loop: every recorded step with a probe index
`mid = m` has `0 ≤ left ≤ m ≤ right ≤ length - 1`.  In particular every
`array[mid]` access of the source is in bounds. -/
lemma searchLoop_bounds (a : List Int) (t : Int) (l r : Int) (c : Nat) :
    0 ≤ l → r ≤ (a.length : Int) - 1 →
    ∀ s ∈ (searchLoop a t l r c).steps, ∀ m : Int, s.mid = some m →
      0 ≤ s.left ∧ s.left ≤ m ∧ m ≤ s.right ∧ s.right ≤ (a.length : Int) - 1 := by
  induction l, r, c using searchLoop.induct a t with
  | case1 l r c hlr mid mv heq =>
      intro hl hr s hs m hm
      have heq2 : a.getD ((l + r).fdiv 2).toNat 0 = t := heq
      have hb := fdiv2_bounds hlr
      rw [searchLoop] at hs
      simp only [if_pos hlr, if_pos heq2, List.mem_singleton] at hs
      subst hs
      simp only [Option.some.injEq] at hm
      simp only []
      omega
  | case2 l r c hlr mid mv cm hne hlt ih =>
      intro hl hr s hs m hm
      have hne2 : ¬(a.getD ((l + r).fdiv 2).toNat 0 = t) := hne
      have hlt2 : a.getD ((l + r).fdiv 2).toNat 0 < t := hlt
      have hb := fdiv2_bounds hlr
      have ih2 : 0 ≤ (l + r).fdiv 2 + 1 → r ≤ (a.length : Int) - 1 →
          ∀ s ∈ (searchLoop a t ((l + r).fdiv 2 + 1) r (c + 1)).steps, ∀ m : Int,
            s.mid = some m →
            0 ≤ s.left ∧ s.left ≤ m ∧ m ≤ s.right ∧
              s.right ≤ (a.length : Int) - 1 := ih
      rw [searchLoop] at hs
      simp only [if_pos hlr, if_neg hne2, if_pos hlt2, List.mem_cons] at hs
      rcases hs with rfl | hs
      · simp only [Option.some.injEq] at hm
        simp only []
        omega
      · exact ih2 (by omega) hr s hs m hm
  | case3 l r c hlr mid mv cm hne hge ih =>
      intro hl hr s hs m hm
      have hne2 : ¬(a.getD ((l + r).fdiv 2).toNat 0 = t) := hne
      have hge2 : ¬(a.getD ((l + r).fdiv 2).toNat 0 < t) := hge
      have hb := fdiv2_bounds hlr
      have ih2 : 0 ≤ l → (l + r).fdiv 2 - 1 ≤ (a.length : Int) - 1 →
          ∀ s ∈ (searchLoop a t l ((l + r).fdiv 2 - 1) (c + 1)).steps, ∀ m : Int,
            s.mid = some m →
            0 ≤ s.left ∧ s.left ≤ m ∧ m ≤ s.right ∧
              s.right ≤ (a.length : Int) - 1 := ih
      rw [searchLoop] at hs
      simp only [if_pos hlr, if_neg hne2, if_neg hge2, List.mem_cons] at hs
      rcases hs with rfl | hs
      · simp only [Option.some.injEq] at hm
        simp only []
        omega
      · exact ih2 hl (by omega) s hs m hm
  | case4 l r c hlr =>
      intro _ _ s hs
      rw [searchLoop] at hs
      simp only [if_neg hlr, List.not_mem_nil] at hs

/-- The loop records at most `ceil(log2(interval size + 1))` steps: each
iteration records one step and at least halves the interval. -/
lemma searchLoop_length_le (a : List Int) (t : Int) (l r : Int) (c : Nat) :
    ((searchLoop a t l r c).steps).length ≤ Nat.clog 2 ((r + 1 - l).toNat + 1) := by
  induction l, r, c using searchLoop.induct a t with
  | case1 l r c hlr mid mv heq =>
      have heq2 : a.getD ((l + r).fdiv 2).toNat 0 = t := heq
      have hpos : 0 < Nat.clog 2 ((r + 1 - l).toNat + 1) :=
        Nat.clog_pos (by norm_num) (by omega)
      rw [searchLoop]
      simp only [if_pos hlr, if_pos heq2, List.length_singleton]
      omega
  | case2 l r c hlr mid mv cm hne hlt ih =>
      have hne2 : ¬(a.getD ((l + r).fdiv 2).toNat 0 = t) := hne
      have hlt2 : a.getD ((l + r).fdiv 2).toNat 0 < t := hlt
      have hediv : (l + r).fdiv 2 = (l + r) / 2 := Int.fdiv_eq_ediv _ (by norm_num)
      have h2 : (searchLoop a t ((l + r).fdiv 2 + 1) r (c + 1)).steps.length ≤
          Nat.clog 2 ((r + 1 - ((l + r).fdiv 2 + 1)).toNat + 1) := ih
      have h3 : Nat.clog 2 ((r + 1 - ((l + r).fdiv 2 + 1)).toNat + 1) ≤
          Nat.clog 2 ((r + 1 - l).toNat / 2 + 1) :=
        Nat.clog_mono_right 2 (by omega)
      have h4 := clog_half ((r + 1 - l).toNat) (by omega)
      rw [searchLoop]
      simp only [if_pos hlr, if_neg hne2, if_pos hlt2, List.length_cons]
      omega
  | case3 l r c hlr mid mv cm hne hge ih =>
      have hne2 : ¬(a.getD ((l + r).fdiv 2).toNat 0 = t) := hne
      have hge2 : ¬(a.getD ((l + r).fdiv 2).toNat 0 < t) := hge
      have hediv : (l + r).fdiv 2 = (l + r) / 2 := Int.fdiv_eq_ediv _ (by norm_num)
      have h2 : (searchLoop a t l ((l + r).fdiv 2 - 1) (c + 1)).steps.length ≤
          Nat.clog 2 (((l + r).fdiv 2 - 1 + 1 - l).toNat + 1) := ih
      have h3 : Nat.clog 2 (((l + r).fdiv 2 - 1 + 1 - l).toNat + 1) ≤
          Nat.clog 2 ((r + 1 - l).toNat / 2 + 1) :=
        Nat.clog_mono_right 2 (by omega)
      have h4 := clog_half ((r + 1 - l).toNat) (by omega)
      rw [searchLoop]
      simp only [if_pos hlr, if_neg hne2, if_neg hge2, List.length_cons]
      omega
  | case4 l r c hlr =>
      rw [searchLoop]
      simp [if_neg hlr]

/-- Completeness: if the target sits at some position inside the current
interval of a sorted array, the loop reports success. -/
lemma searchLoop_complete (a : List Int) (t : Int)
    (hsorted : List.Sorted (· ≤ ·) a) (l r : Int) (c : Nat) :
    r < (a.length : Int) →
    (∃ i : Nat, l ≤ (i : Int) ∧ (i : Int) ≤ r ∧ i < a.length ∧ a.getD i 0 = t) →
    (searchLoop a t l r c).found = true := by
  induction l, r, c using searchLoop.induct a t with
  | case1 l r c hlr mid mv heq =>
      intro hr _
      have heq2 : a.getD ((l + r).fdiv 2).toNat 0 = t := heq
      rw [searchLoop]
      simp only [if_pos hlr, if_pos heq2]
  | case2 l r c hlr mid mv cm hne hlt ih =>
      rintro hr ⟨i, hi1, hi2, hi3, hi4⟩
      have hne2 : ¬(a.getD ((l + r).fdiv 2).toNat 0 = t) := hne
      have hlt2 : a.getD ((l + r).fdiv 2).toNat 0 < t := hlt
      have hb := fdiv2_bounds hlr
      have ih2 : r < (a.length : Int) →
          (∃ i : Nat, (l + r).fdiv 2 + 1 ≤ (i : Int) ∧ (i : Int) ≤ r ∧
            i < a.length ∧ a.getD i 0 = t) →
          (searchLoop a t ((l + r).fdiv 2 + 1) r (c + 1)).found = true := ih
      have hmidlt : (l + r).fdiv 2 < (i : Int) := by
        by_contra hle
        push_neg at hle
        have hile : i ≤ ((l + r).fdiv 2).toNat := by omega
        have hfl : ((l + r).fdiv 2).toNat < a.length := by omega
        have hmono := sorted_getD_le a hsorted hile hfl
        omega
      rw [searchLoop]
      simp only [if_pos hlr, if_neg hne2, if_pos hlt2]
      exact ih2 hr ⟨i, by omega, hi2, hi3, hi4⟩
  | case3 l r c hlr mid mv cm hne hge ih =>
      rintro hr ⟨i, hi1, hi2, hi3, hi4⟩
      have hne2 : ¬(a.getD ((l + r).fdiv 2).toNat 0 = t) := hne
      have hge2 : ¬(a.getD ((l + r).fdiv 2).toNat 0 < t) := hge
      have hb := fdiv2_bounds hlr
      have ih2 : (l + r).fdiv 2 - 1 < (a.length : Int) →
          (∃ i : Nat, l ≤ (i : Int) ∧ (i : Int) ≤ (l + r).fdiv 2 - 1 ∧
            i < a.length ∧ a.getD i 0 = t) →
          (searchLoop a t l ((l + r).fdiv 2 - 1) (c + 1)).found = true := ih
      have hmidgt : (i : Int) < (l + r).fdiv 2 := by
        by_contra hle
        push_neg at hle
        have hile : ((l + r).fdiv 2).toNat ≤ i := by omega
        have hmono := sorted_getD_le a hsorted hile hi3
        omega
      rw [searchLoop]
      simp only [if_pos hlr, if_neg hne2, if_neg hge2]
      exact ih2 (by omega) ⟨i, hi1, by omega, hi3, hi4⟩
  | case4 l r c hlr =>
      rintro hr ⟨i, hi1, hi2, _, _⟩
      exfalso
      omega

/-- No step recorded inside the loop carries the `not_found` status: the
loop records only `searching` and `found` steps. -/
lemma searchLoop_status_ne_not_found (a : List Int) (t : Int) (l r : Int) (c : Nat) :
    ∀ s ∈ (searchLoop a t l r c).steps, s.status ≠ Status.not_found := by
  intro s hs
  cases hf : (searchLoop a t l r c).found with
  | false =>
      have h := ((searchLoop_not_found_shape a t l r c hf).1 s hs).1
      rw [h]
      simp
  | true =>
      obtain ⟨pre, st, hsplit, hpre, h1, _, _⟩ := searchLoop_found_shape a t l r c hf
      rw [hsplit] at hs
      rcases List.mem_append.mp hs with h | h
      · rw [hpre s h]
        simp
      · rw [List.mem_singleton.mp h, h1]
        simp

/-- Shape of the trace when the loop reports success: the initial step
followed by the loop's steps, and no `not_found` step is appended. -/
lemma execute_shape_found (A : List Int) (T : Int)
    (h : (searchLoop A T 0 ((A.length : Int) - 1) 0).found = true) :
    ∃ s0 : Step,
      (execute A T).steps =
        s0 :: (searchLoop A T 0 ((A.length : Int) - 1) 0).steps ∧
      s0.left = 0 ∧ s0.right = (A.length : Int) - 1 ∧ s0.mid = none ∧
      s0.comparison = none ∧ s0.status = Status.searching ∧
      (execute A T).found = true ∧
      (execute A T).found_index =
        (searchLoop A T 0 ((A.length : Int) - 1) 0).found_index ∧
      (execute A T).comparisons =
        (searchLoop A T 0 ((A.length : Int) - 1) 0).comparisons := by
  simp only [execute]
  rw [if_pos h]
  exact ⟨_, rfl, rfl, rfl, rfl, rfl, rfl, rfl, rfl, rfl⟩

/-- Shape of the trace when the loop exits without a match: the initial
step, the loop's steps, then one final `not_found` step. -/
lemma execute_shape_not_found (A : List Int) (T : Int)
    (h : (searchLoop A T 0 ((A.length : Int) - 1) 0).found = false) :
    ∃ s0 nf : Step,
      (execute A T).steps =
        s0 :: (searchLoop A T 0 ((A.length : Int) - 1) 0).steps ++ [nf] ∧
      s0.left = 0 ∧ s0.right = (A.length : Int) - 1 ∧ s0.mid = none ∧
      s0.comparison = none ∧ s0.status = Status.searching ∧
      nf.mid = none ∧ nf.comparison = none ∧ nf.status = Status.not_found ∧
      (execute A T).found = false ∧
      (execute A T).found_index =
        (searchLoop A T 0 ((A.length : Int) - 1) 0).found_index ∧
      (execute A T).comparisons =
        (searchLoop A T 0 ((A.length : Int) - 1) 0).comparisons := by
  simp only [execute]
  rw [if_neg (by simp [h])]
  exact ⟨_, _, rfl, rfl, rfl, rfl, rfl, rfl, rfl, rfl, rfl, rfl, rfl, rfl⟩

/-! ### The claims -/

/-- C1: for every ascending-sorted array `A` and target `T` occurring in
`A`, the trace of `BinarySearchAlgorithm.execute` ends in a step with
status `found` and comparison outcome `equal`, whose `mid` is the recorded
`found_index`, and `found_index` is a position of `A` holding `T`. -/
theorem C1_present_target_found (A : List Int) (T : Int)
    (hA : List.Sorted (· ≤ ·) A) (hT : T ∈ A) :
    (execute A T).found = true ∧
    (∃ st, (execute A T).steps.getLast? = some st ∧
      st.status = Status.found ∧
      st.comparison = some Cmp.equal ∧
      st.mid = some ((execute A T).found_index)) ∧
    (∃ k : Nat, (execute A T).found_index = (k : Int) ∧
      ∃ hk : k < A.length, A.get ⟨k, hk⟩ = T) := by
  obtain ⟨n, hn⟩ := List.mem_iff_get.mp hT
  have hfound : (searchLoop A T 0 ((A.length : Int) - 1) 0).found = true := by
    apply searchLoop_complete A T hA 0 ((A.length : Int) - 1) 0 (by omega)
    refine ⟨(n : Nat), by omega, by have := n.isLt; omega, n.isLt, ?_⟩
    rw [getD_eq_get A (n : Nat) n.isLt]
    exact hn
  obtain ⟨s0, hsteps, hs0l, hs0r, hs0m, hs0c, hs0s, hfnd, hfi, hcm⟩ :=
    execute_shape_found A T hfound
  obtain ⟨pre, st, hsplit, hpre, hstat, hcmp, hmid⟩ :=
    searchLoop_found_shape A T 0 ((A.length : Int) - 1) 0 hfound
  obtain ⟨h0, hlt, hgd⟩ :=
    searchLoop_found_value A T 0 ((A.length : Int) - 1) 0 (le_refl 0)
      (by omega) hfound
  refine ⟨hfnd, ⟨st, ?_, hstat, hcmp, ?_⟩, ?_⟩
  · rw [hsteps, hsplit, ← List.cons_append, List.getLast?_concat]
  · rw [hfi]
    exact hmid
  · refine ⟨((searchLoop A T 0 ((A.length : Int) - 1) 0).found_index).toNat,
      by rw [hfi]; omega, ?_⟩
    refine ⟨hlt, ?_⟩
    rw [← getD_eq_get A _ hlt]
    exact hgd

/-- Witness for C1 at a concrete input: `A = [1, 2, 3]`, `T = 2`. -/
theorem C1_present_target_found_witness :
    (execute [1, 2, 3] 2).found = true ∧
    (∃ st, (execute [1, 2, 3] 2).steps.getLast? = some st ∧
      st.status = Status.found ∧
      st.comparison = some Cmp.equal ∧
      st.mid = some ((execute [1, 2, 3] 2).found_index)) ∧
    (∃ k : Nat, (execute [1, 2, 3] 2).found_index = (k : Int) ∧
      ∃ hk : k < ([1, 2, 3] : List Int).length,
        ([1, 2, 3] : List Int).get ⟨k, hk⟩ = 2) :=
  C1_present_target_found [1, 2, 3] 2 (by decide) (by decide)

/-- C4: for every sorted array and absent target, the trace ends in a
`not_found` step and no step anywhere carries the `equal` outcome. -/
theorem C4_absent_target_not_found (A : List Int) (T : Int)
    (hA : List.Sorted (· ≤ ·) A) (hT : T ∉ A) :
    (∃ st, (execute A T).steps.getLast? = some st ∧
      st.status = Status.not_found) ∧
    ∀ s ∈ (execute A T).steps, s.comparison ≠ some Cmp.equal := by
  have hnf : (searchLoop A T 0 ((A.length : Int) - 1) 0).found = false := by
    by_contra hb
    rw [Bool.not_eq_false] at hb
    obtain ⟨h0, hlt, hgd⟩ :=
      searchLoop_found_value A T 0 ((A.length : Int) - 1) 0 (le_refl 0)
        (by omega) hb
    rw [getD_eq_get A _ hlt] at hgd
    exact hT (hgd ▸ List.get_mem A _ hlt)
  obtain ⟨s0, nf, hsteps, hs0l, hs0r, hs0m, hs0c, hs0s, hnfm, hnfc, hnfs,
    hfnd, hfi, hcm⟩ := execute_shape_not_found A T hnf
  obtain ⟨hls, hidx⟩ := searchLoop_not_found_shape A T 0 ((A.length : Int) - 1) 0 hnf
  constructor
  · exact ⟨nf, by rw [hsteps, List.getLast?_concat], hnfs⟩
  · intro s hs
    rw [hsteps] at hs
    rcases List.mem_append.mp hs with hs2 | h
    · rcases List.mem_cons.mp hs2 with rfl | h2
      · rw [hs0c]
        simp
      · exact (hls s h2).2
    · rw [List.mem_singleton.mp h, hnfc]
      simp

/-- Witness for C4 at a concrete input: `A = [2, 4, 6]`, `T = 5`. -/
theorem C4_absent_target_not_found_witness :
    (∃ st, (execute [2, 4, 6] 5).steps.getLast? = some st ∧
      st.status = Status.not_found) ∧
    ∀ s ∈ (execute [2, 4, 6] 5).steps, s.comparison ≠ some Cmp.equal :=
  C4_absent_target_not_found [2, 4, 6] 5 (by decide) (by decide)

/-- C9: `execute` is a total function (the embedding itself is
terminating, so every array and target yield a finite, deterministic
trace), the trace always holds at least the initial and one terminal step,
and on the empty array it is exactly the initial step followed by a
`not_found` step with zero comparisons counted. -/
theorem C9_terminates_empty_trace (A : List Int) (T : Int) :
    2 ≤ (execute A T).steps.length ∧
    (A = [] →
      (execute A T).steps.length = 2 ∧
      (execute A T).comparisons = 0 ∧
      ((execute A T).steps.getD 0 default).status = Status.searching ∧
      ((execute A T).steps.getD 0 default).mid = none ∧
      ((execute A T).steps.getD 1 default).status = Status.not_found ∧
      ((execute A T).steps.getD 1 default).comparison = none) := by
  constructor
  · cases hf : (searchLoop A T 0 ((A.length : Int) - 1) 0).found with
    | true =>
        obtain ⟨s0, hsteps, _, _, _, _, _, _, _⟩ := execute_shape_found A T hf
        obtain ⟨pre, st, hsplit, _, _, _, _⟩ :=
          searchLoop_found_shape A T 0 ((A.length : Int) - 1) 0 hf
        rw [hsteps, hsplit]
        simp
    | false =>
        obtain ⟨s0, nf, hsteps, _⟩ := execute_shape_not_found A T hf
        rw [hsteps]
        simp
  · rintro rfl
    refine ⟨?_, ?_, ?_, ?_, ?_, ?_⟩ <;> simp [execute, searchLoop]

/-- Witness for C9's empty-array part, applied at `A = []`, `T = 10`. -/
theorem C9_terminates_empty_trace_witness :
    2 ≤ (execute [] 10).steps.length ∧
    (execute [] 10).steps.length = 2 ∧
    (execute [] 10).comparisons = 0 ∧
    ((execute [] 10).steps.getD 0 default).status = Status.searching ∧
    ((execute [] 10).steps.getD 0 default).mid = none ∧
    ((execute [] 10).steps.getD 1 default).status = Status.not_found ∧
    ((execute [] 10).steps.getD 1 default).comparison = none :=
  ⟨(C9_terminates_empty_trace [] 10).1, (C9_terminates_empty_trace [] 10).2 rfl⟩

/-- C10: every step of every trace that has `mid` set satisfies
`0 ≤ left ≤ mid ≤ right < len(array)` — so every `array[mid]` access the
loop performs (each such access records exactly one step with that `mid`)
is in bounds, for any array and target, sorted or not. -/
theorem C10_mid_in_bounds (A : List Int) (T : Int) :
    ∀ s ∈ (execute A T).steps, ∀ m : Int, s.mid = some m →
      0 ≤ s.left ∧ s.left ≤ m ∧ m ≤ s.right ∧
      s.right < (A.length : Int) ∧ m.toNat < A.length := by
  intro s hs m hm
  have hb := searchLoop_bounds A T 0 ((A.length : Int) - 1) 0 (le_refl 0) (by omega)
  cases hf : (searchLoop A T 0 ((A.length : Int) - 1) 0).found with
  | true =>
      obtain ⟨s0, hsteps, _, _, hs0m, _, _, _, _⟩ := execute_shape_found A T hf
      rw [hsteps] at hs
      rcases List.mem_cons.mp hs with rfl | hs2
      · rw [hs0m] at hm
        exact Option.noConfusion hm
      · have h := hb s hs2 m hm
        refine ⟨h.1, h.2.1, h.2.2.1, by omega, by omega⟩
  | false =>
      obtain ⟨s0, nf, hsteps, _, _, hs0m, _, _, hnfm, _, _, _, _, _⟩ :=
        execute_shape_not_found A T hf
      rw [hsteps] at hs
      rcases List.mem_append.mp hs with hs2 | h
      · rcases List.mem_cons.mp hs2 with rfl | h2
        · rw [hs0m] at hm
          exact Option.noConfusion hm
        · have h2 := hb s h2 m hm
          refine ⟨h2.1, h2.2.1, h2.2.2.1, by omega, by omega⟩
      · rw [List.mem_singleton.mp h] at hm
        rw [hnfm] at hm
        exact Option.noConfusion hm

/-- Witness for C10 at a concrete input: the `found` step of
`execute [5] 5` has `mid = some 0` with `0 ≤ 0 ≤ 0 ≤ 0 < 1`. -/
theorem C10_mid_in_bounds_witness :
    0 ≤ ((execute [5] 5).steps.getD 1 default).left ∧
    ((execute [5] 5).steps.getD 1 default).left ≤ 0 ∧
    (0 : Int) ≤ ((execute [5] 5).steps.getD 1 default).right ∧
    ((execute [5] 5).steps.getD 1 default).right < ([5] : List Int).length ∧
    (0 : Int).toNat < ([5] : List Int).length := by
  have hmem : (execute [5] 5).steps.getD 1 default ∈ (execute [5] 5).steps := by
    simp [execute, searchLoop]
  have hmid : ((execute [5] 5).steps.getD 1 default).mid = some 0 := by
    simp [execute, searchLoop]
  exact C10_mid_in_bounds [5] 5 _ hmem 0 hmid

/-- C2 fails as stated: on the sorted array `[2, 4, 6]` with absent target
`5` the trace has 4 steps (initial, `less`, `greater`, `not_found`), but
`ceil(log2(3 + 1)) + 1 = 3`.  (This is the spec's own §8 scenario.) -/
theorem C2_steps_bound_counterexample :
    List.Sorted (· ≤ ·) ([2, 4, 6] : List Int) ∧
    ¬((execute [2, 4, 6] 5).steps.length ≤
        Nat.clog 2 (([2, 4, 6] : List Int).length + 1) + 1) := by
  constructor
  · decide
  · have h1 : (execute [2, 4, 6] 5).steps.length = 4 := by
      simp [execute, searchLoop]
    have h2 : Nat.clog 2 (([2, 4, 6] : List Int).length + 1) = 2 := by
      simp [Nat.clog]
    omega

/-- C2 amended: the trace length (initial and terminal steps included) is
at most `ceil(log2(len(A) + 1)) + 2`; the loop records at most
`ceil(log2(len(A) + 1))` steps, and the initial step plus a possible
`not_found` step add two more. -/
theorem C2_steps_bound_amended (A : List Int) (T : Int)
    (hA : List.Sorted (· ≤ ·) A) :
    (execute A T).steps.length ≤ Nat.clog 2 (A.length + 1) + 2 := by
  have hlen := searchLoop_length_le A T 0 ((A.length : Int) - 1) 0
  have hsz : ((A.length : Int) - 1 + 1 - 0).toNat = A.length := by omega
  rw [hsz] at hlen
  cases hf : (searchLoop A T 0 ((A.length : Int) - 1) 0).found with
  | true =>
      obtain ⟨s0, hsteps, _, _, _, _, _, _, _⟩ := execute_shape_found A T hf
      rw [hsteps]
      simp only [List.length_cons]
      omega
  | false =>
      obtain ⟨s0, nf, hsteps, _⟩ := execute_shape_not_found A T hf
      rw [hsteps]
      simp only [List.length_append, List.length_cons, List.length_nil]
      omega

/-- Witness for the amended C2 at `A = [1]`, `T = 1`. -/
theorem C2_steps_bound_amended_witness :
    (execute [1] 1).steps.length ≤
      Nat.clog 2 (([1] : List Int).length + 1) + 2 :=
  C2_steps_bound_amended [1] 1 (by decide)

/-- C3: for every array and target the trace is an initial `searching`
step with `mid` unset, then intermediate `searching` steps, then exactly
one terminal step with status `found` or `not_found`. -/
theorem C3_trace_shape (A : List Int) (T : Int) :
    ∃ first mids last,
      (execute A T).steps = first :: (mids ++ [last]) ∧
      first.status = Status.searching ∧ first.mid = none ∧
      (last.status = Status.found ∨ last.status = Status.not_found) ∧
      (∀ s ∈ mids, s.status = Status.searching) ∧
      ((execute A T).steps.countP
          (fun s => decide (s.status = Status.found ∨
            s.status = Status.not_found))) = 1 := by
  cases hf : (searchLoop A T 0 ((A.length : Int) - 1) 0).found with
  | true =>
      obtain ⟨s0, hsteps, hs0l, hs0r, hs0m, hs0c, hs0s, hfnd, hfi, hcm⟩ :=
        execute_shape_found A T hf
      obtain ⟨pre, st, hsplit, hpre, hstat, hcmp, hmid⟩ :=
        searchLoop_found_shape A T 0 ((A.length : Int) - 1) 0 hf
      refine ⟨s0, pre, st, by rw [hsteps, hsplit], hs0s, hs0m,
        Or.inl hstat, hpre, ?_⟩
      rw [hsteps, hsplit]
      simp [List.countP_cons, List.countP_append, hs0s, hstat]
      intro s hs
      simp [hpre s hs]
  | false =>
      obtain ⟨s0, nf, hsteps, hs0l, hs0r, hs0m, hs0c, hs0s, hnfm, hnfc,
        hnfs, hfnd, hfi, hcm⟩ := execute_shape_not_found A T hf
      obtain ⟨hls, hidx⟩ :=
        searchLoop_not_found_shape A T 0 ((A.length : Int) - 1) 0 hf
      refine ⟨s0, (searchLoop A T 0 ((A.length : Int) - 1) 0).steps, nf,
        by rw [hsteps]; simp, hs0s, hs0m, Or.inr hnfs,
        fun s hs => (hls s hs).1, ?_⟩
      rw [hsteps]
      simp [List.countP_cons, List.countP_append, hs0s, hnfs]
      intro s hs
      simp [(hls s hs).1]

/-- Counting inside a prefix of steps that all carry a comparison gives
exactly the prefix length. -/
lemma countP_take_of_all (xs : List Step)
    (hall : ∀ s ∈ xs, s.comparison.isSome = true) (c : Nat)
    (hc : c ≤ xs.length) :
    (xs.take c).countP (fun s => s.comparison.isSome) = c := by
  have hlen : (xs.take c).length = c := by
    rw [List.length_take]
    omega
  conv_rhs => rw [← hlen]
  rw [List.countP_eq_length]
  intro s hs
  exact hall s (List.take_subset c xs hs)

lemma countComparisons_eq_countP (steps : List Step) (c : Nat) :
    countComparisons steps c =
      (steps.take (c + 1)).countP (fun s => s.comparison.isSome) := by
  rw [countComparisons, List.countP_eq_length_filter]

/-- C5 fails as stated: with the empty array and target 10 the trace is
`[initial, not_found]`; at cursor `c = 1` the stats line displays
"Comparisons so far: 1", but no step in `steps 0..1` records a comparison
(both have `comparison = None`), so the displayed count does not equal the
recorded count. -/
theorem C5_comparisons_counterexample :
    1 < (execute [] 10).steps.length ∧
    comparisonsSoFarDisplayed
      { current_array := [], current_target := some 10, current_step := 1,
        all_steps := (execute [] 10).steps, is_playing := false } = 1 ∧
    countComparisons (execute [] 10).steps 1 = 0 := by
  refine ⟨?_, rfl, ?_⟩
  · simp [execute, searchLoop]
  · simp [countComparisons, execute, searchLoop]

/-- C5 amended: the stats projection reports comparisons-so-far equal to
the cursor `c`, and `c` equals the number of comparisons recorded in steps
`0..c` except at a terminal `not_found` step, where the recorded count is
`c - 1` (the `not_found` step carries no comparison). -/
theorem C5_comparisons_amended (A : List Int) (T : Int) (c : Nat)
    (hc : c < (execute A T).steps.length) :
    comparisonsSoFarDisplayed
      { current_array := A, current_target := some T, current_step := c,
        all_steps := (execute A T).steps, is_playing := false } = c ∧
    countComparisons (execute A T).steps c +
      (if ((execute A T).steps.getD c default).status = Status.not_found
        then 1 else 0) = c := by
  refine ⟨rfl, ?_⟩
  have hall := searchLoop_comparison_isSome A T 0 ((A.length : Int) - 1) 0
  have hnnf := searchLoop_status_ne_not_found A T 0 ((A.length : Int) - 1) 0
  rw [countComparisons_eq_countP]
  cases hf : (searchLoop A T 0 ((A.length : Int) - 1) 0).found with
  | true =>
      obtain ⟨s0, hsteps, hs0l, hs0r, hs0m, hs0c, hs0s, _, _, _⟩ :=
        execute_shape_found A T hf
      rw [hsteps] at hc ⊢
      simp only [List.length_cons] at hc
      rw [List.take_succ_cons, List.countP_cons]
      have hcnt : ((searchLoop A T 0 ((A.length : Int) - 1) 0).steps.take
          c).countP (fun s => s.comparison.isSome) = c :=
        countP_take_of_all _ hall c (by omega)
      have hps0 : (s0.comparison.isSome : Bool) = false := by
        rw [hs0c]
        rfl
      have hstatus :
          ((s0 :: (searchLoop A T 0 ((A.length : Int) - 1) 0).steps).getD c
            default).status ≠ Status.not_found := by
        cases c with
        | zero =>
            rw [List.getD_cons_zero, hs0s]
            simp
        | succ k =>
            rw [List.getD_cons_succ]
            have hk : k < (searchLoop A T 0 ((A.length : Int) - 1) 0).steps.length := by
              omega
            have hmem : (searchLoop A T 0 ((A.length : Int) - 1) 0).steps.getD
                k default ∈ (searchLoop A T 0 ((A.length : Int) - 1) 0).steps := by
              rw [List.getD_eq_getElem?_getD, List.getElem?_eq_getElem hk]
              exact List.getElem_mem _
            exact hnnf _ hmem
      rw [if_neg hstatus, hcnt, hps0]
      simp
  | false =>
      obtain ⟨s0, nf, hsteps, hs0l, hs0r, hs0m, hs0c, hs0s, hnfm, hnfc,
        hnfs, _, _, _⟩ := execute_shape_not_found A T hf
      obtain ⟨hls, _⟩ :=
        searchLoop_not_found_shape A T 0 ((A.length : Int) - 1) 0 hf
      rw [hsteps] at hc ⊢
      simp only [List.length_append, List.length_cons, List.length_nil] at hc
      by_cases hcle :
          c ≤ (searchLoop A T 0 ((A.length : Int) - 1) 0).steps.length
      · rw [List.take_append_of_le_length (by simp; omega),
          List.take_succ_cons, List.countP_cons]
        have hcnt : ((searchLoop A T 0 ((A.length : Int) - 1) 0).steps.take
            c).countP (fun s => s.comparison.isSome) = c :=
          countP_take_of_all _ hall c hcle
        have hps0 : (s0.comparison.isSome : Bool) = false := by
          rw [hs0c]
          rfl
        have hstatus :
            (((s0 :: (searchLoop A T 0 ((A.length : Int) - 1) 0).steps) ++
              [nf]).getD c default).status ≠ Status.not_found := by
          rw [List.getD_append _ _ _ c (by simp; omega)]
          cases c with
          | zero =>
              rw [List.getD_cons_zero, hs0s]
              simp
          | succ k =>
              rw [List.getD_cons_succ]
              have hk : k <
                  (searchLoop A T 0 ((A.length : Int) - 1) 0).steps.length := by
                omega
              have hmem : (searchLoop A T 0 ((A.length : Int) - 1) 0).steps.getD
                  k default ∈
                  (searchLoop A T 0 ((A.length : Int) - 1) 0).steps := by
                rw [List.getD_eq_getElem?_getD, List.getElem?_eq_getElem hk]
                exact List.getElem_mem _
              rw [(hls _ hmem).1]
              simp
        rw [if_neg hstatus, hcnt, hps0]
        simp
      · have hceq : c = (searchLoop A T 0 ((A.length : Int) - 1) 0).steps.length
            + 1 := by omega
        have htake : ((s0 :: (searchLoop A T 0 ((A.length : Int) - 1) 0).steps)
            ++ [nf]).take (c + 1) =
            (s0 :: (searchLoop A T 0 ((A.length : Int) - 1) 0).steps) ++ [nf] := by
          apply List.take_of_length_le
          simp
          omega
        have hstatus : (((s0 :: (searchLoop A T 0 ((A.length : Int) - 1) 0).steps)
            ++ [nf]).getD c default).status = Status.not_found := by
          rw [List.getD_append_right _ _ _ c (by simp; omega)]
          have : c - (s0 :: (searchLoop A T 0 ((A.length : Int) - 1) 0).steps).length
              = 0 := by simp; omega
          rw [this, List.getD_cons_zero, hnfs]
        have hcntls : ((searchLoop A T 0 ((A.length : Int) - 1) 0).steps).countP
            (fun s => s.comparison.isSome) =
            (searchLoop A T 0 ((A.length : Int) - 1) 0).steps.length :=
          List.countP_eq_length.mpr hall
        have hps0 : (s0.comparison.isSome : Bool) = false := by
          rw [hs0c]
          rfl
        have hpnf : (nf.comparison.isSome : Bool) = false := by
          rw [hnfc]
          rfl
        rw [htake, if_pos hstatus, List.countP_append, List.countP_cons,
          hcntls, hps0]
        simp [hpnf]
        omega

/-- Witness for the amended C5 at `A = [2, 4, 6]`, `T = 5`, cursor 1. -/
theorem C5_comparisons_amended_witness :
    comparisonsSoFarDisplayed
      { current_array := [2, 4, 6], current_target := some 5,
        current_step := 1, all_steps := (execute [2, 4, 6] 5).steps,
        is_playing := false } = 1 ∧
    countComparisons (execute [2, 4, 6] 5).steps 1 +
      (if ((execute [2, 4, 6] 5).steps.getD 1 default).status =
          Status.not_found then 1 else 0) = 1 :=
  C5_comparisons_amended [2, 4, 6] 5 1 (by simp [execute, searchLoop])

/-- C6 fails as stated: at the last cursor position of a bound trace with
auto-play on, `next_step` not only leaves the cursor but also clears the
`is_playing` flag (app.py line 300), so it mutates more than the cursor. -/
theorem C6_frame_counterexample :
    (execute [] 0).steps ≠ [] ∧
    (next_step
      { current_array := [], current_target := some 0, current_step := 1,
        all_steps := (execute [] 0).steps,
        is_playing := true }).current_step = 1 ∧
    (next_step
      { current_array := [], current_target := some 0, current_step := 1,
        all_steps := (execute [] 0).steps,
        is_playing := true }).is_playing = false := by
  refine ⟨?_, ?_, ?_⟩ <;> simp [next_step, execute, searchLoop]

/-- C6 amended: `previous_step` and `reset_search` mutate only the cursor;
`next_step` mutates only the cursor when the cursor is strictly before the
last index, and otherwise leaves the cursor and sets `is_playing := false`
while every other field is unchanged. -/
theorem C6_frame_amended (s : AppState) (h : s.all_steps ≠ []) :
    ((previous_step s).current_array = s.current_array ∧
     (previous_step s).current_target = s.current_target ∧
     (previous_step s).all_steps = s.all_steps ∧
     (previous_step s).is_playing = s.is_playing) ∧
    ((reset_search s).current_array = s.current_array ∧
     (reset_search s).current_target = s.current_target ∧
     (reset_search s).all_steps = s.all_steps ∧
     (reset_search s).is_playing = s.is_playing) ∧
    ((next_step s).current_array = s.current_array ∧
     (next_step s).current_target = s.current_target ∧
     (next_step s).all_steps = s.all_steps) ∧
    ((s.current_step : Int) < (s.all_steps.length : Int) - 1 →
      (next_step s).is_playing = s.is_playing ∧
      (next_step s).current_step = s.current_step + 1) ∧
    (¬(s.current_step : Int) < (s.all_steps.length : Int) - 1 →
      (next_step s).current_step = s.current_step ∧
      (next_step s).is_playing = false) := by
  unfold previous_step reset_search next_step
  split_ifs <;> simp_all

/-- Witness for the amended C6 at a concrete state over the trace of
`execute [] 0`. -/
theorem C6_frame_amended_witness :
    (({ current_array := [], current_target := some 0, current_step := 0,
        all_steps := (execute [] 0).steps, is_playing := false } :
        AppState).all_steps ≠ []) ∧
    (previous_step
      { current_array := [], current_target := some 0, current_step := 0,
        all_steps := (execute [] 0).steps,
        is_playing := false }).all_steps = (execute [] 0).steps := by
  have h :
      ({ current_array := [], current_target := some 0, current_step := 0,
         all_steps := (execute [] 0).steps, is_playing := false } :
         AppState).all_steps ≠ [] := by
    simp [execute, searchLoop]
  exact ⟨h, (C6_frame_amended _ h).1.2.2.1⟩

/-- C7: advancing then retreating restores the cursor away from the trace
boundaries; retreating at cursor 0 and advancing at the last index are
no-ops on the cursor. -/
theorem C7_round_trip (s : AppState) (h : s.all_steps ≠ []) :
    (0 < s.current_step →
      (s.current_step : Int) < (s.all_steps.length : Int) - 1 →
      (previous_step (next_step s)).current_step = s.current_step) ∧
    (s.current_step = 0 → (previous_step s).current_step = 0) ∧
    (s.current_step = s.all_steps.length - 1 →
      (next_step s).current_step = s.current_step) := by
  have hlen : 0 < s.all_steps.length := List.length_pos.mpr h
  unfold previous_step next_step
  split_ifs <;> simp_all <;> omega

/-- Witness for C7 over the 4-step trace of `execute [2, 4, 6] 5` with the
cursor at the interior position 1. -/
theorem C7_round_trip_witness :
    (previous_step (next_step
      { current_array := [2, 4, 6], current_target := some 5,
        current_step := 1, all_steps := (execute [2, 4, 6] 5).steps,
        is_playing := false })).current_step = 1 := by
  have h :
      ({ current_array := [2, 4, 6], current_target := some 5,
         current_step := 1, all_steps := (execute [2, 4, 6] 5).steps,
         is_playing := false } : AppState).all_steps ≠ [] := by
    simp [execute, searchLoop]
  exact (C7_round_trip _ h).1 (by decide) (by simp [execute, searchLoop])

/-- C8: for every array position `i`, the bar color selected by
`create_bar_chart` is exactly the color of the claim's highlight class with
tie-break priority FOUND > CURRENT_MID > ELIMINATED > IN_RANGE. -/
theorem C8_highlight_priority (array : List Int) (step : Step) (i : Nat)
    (hi : i < array.length) :
    (create_bar_chart_colors array step).getD i "" =
      colorOfHighlight (claimHighlight step i) := by
  have hmap : (create_bar_chart_colors array step).getD i "" =
      barColor step i := by
    simp [create_bar_chart_colors, List.getD_eq_getElem?_getD,
      List.getElem?_map, List.getElem?_range hi]
  rw [hmap]
  unfold barColor claimHighlight colorOfHighlight
  split_ifs <;> rfl

/-- Witness for C8: the `found` step of a one-element search paints
position 0 with the FOUND color. -/
theorem C8_highlight_priority_witness :
    (create_bar_chart_colors [5]
      { left := 0, right := 0, mid := some 0, comparison := some Cmp.equal,
        message := "", status := Status.found }).getD 0 "" =
      colorOfHighlight (claimHighlight
        { left := 0, right := 0, mid := some 0,
          comparison := some Cmp.equal, message := "",
          status := Status.found } 0) :=
  C8_highlight_priority [5] _ 0 (by decide)

end BS
